import Mathlib

/-!
Verification of the kagglebirds2020 data-pipeline module
(`definitions/datasets/kagglebirds2020/__init__.py`).

We shallowly embed the algorithmic core of the module:

* `read_noise_csv`'s changepoint sweep that extracts bird-free
  `(start, length)` segments from a list of call intervals
  (`eventsOf`, `sortEvents`, `sweepAux`, `read_noise_segments`);
* the point-timestamp schema handling of `read_noise_csv`
  (`pointIntervals`);
* `loop` and `crop` and the `FixedSizeExcerpts` stage built on them;
* the `Floatify`, `DownmixChannels`, `MixBackgroundNoise` and `Mixup`
  stages, with every random draw made an explicit parameter;
* the schema (shapes/dtypes) rewriting each stage performs, and the
  attribute-forwarding chain implemented by the stages' `__getattr__`.

Sample offsets and event changes are modelled as integers; audio sample
values and probabilities as rationals.  Items are finite maps from field
names to optional values (`none` models a missing dictionary key).
-/

/-! ### Segment detector (`read_noise_csv`) -/

/-- Events of the changepoint sweep: each interval `(b, e)` contributes a
`(b, +1)` and an `(e, -1)` event, in the order `read_noise_csv` builds them
(all beginnings first, then all endings). -/
def eventsOf (intervals : List (Int × Int)) : List (Int × Int) :=
  intervals.map (fun p => (p.1, (1 : Int))) ++ intervals.map (fun p => (p.2, (-1 : Int)))

/-- Lexicographic order on `(offset, change)` pairs: Python's `sorted` on
tuples. -/
def evLe (a b : Int × Int) : Prop :=
  a.1 < b.1 ∨ (a.1 = b.1 ∧ a.2 ≤ b.2)

instance : DecidableRel evLe := fun a b => by
  unfold evLe
  infer_instance

instance : IsTotal (Int × Int) evLe := by
  constructor
  intro a b
  unfold evLe
  omega

instance : IsTrans (Int × Int) evLe := by
  constructor
  intro a b c hab hbc
  unfold evLe at *
  omega

/-- `sorted(changepoints)` in `read_noise_csv`. -/
def sortEvents (events : List (Int × Int)) : List (Int × Int) :=
  events.insertionSort evLe

/-- The cumulative-sum sweep of `read_noise_csv`: walking the event list
`(t_0,c_0), (t_1,c_1), ...` it emits `(t_i, t_(i+1) - t_i)` whenever the
running sum `acc + c_0 + ... + c_i` is zero (this is
`num_sources = np.cumsum(changes[:-1])`, `inactive = np.where(num_sources == 0)`,
`zip(times[inactive], times[inactive + 1] - times[inactive])`). -/
def sweepAux : Int → List (Int × Int) → List (Int × Int)
  | _, [] => []
  | _, [_] => []
  | acc, (t1, c1) :: (t2, c2) :: rest =>
    if acc + c1 = 0 then
      (t1, t2 - t1) :: sweepAux (acc + c1) ((t2, c2) :: rest)
    else
      sweepAux (acc + c1) ((t2, c2) :: rest)

/-- The sweep applied to an event list with the synthetic `(0, 0)` event
prepended and `(length, 0)` appended, as in `read_noise_csv`. -/
def sweepSegments (events : List (Int × Int)) (length : Int) : List (Int × Int) :=
  sweepAux 0 ((0, 0) :: (events ++ [(length, 0)]))

/-- The whole segment extraction of `read_noise_csv`, starting from the
already-sampled integer call intervals. -/
def read_noise_segments (intervals : List (Int × Int)) (length : Int) : List (Int × Int) :=
  sweepSegments (sortEvents (eventsOf intervals)) length

/-- A sample position `x` is covered by one of the emitted `(start, length)`
segments. -/
def coveredBy (segs : List (Int × Int)) (x : Int) : Prop :=
  ∃ p ∈ segs, p.1 ≤ x ∧ x < p.1 + p.2

instance : ∀ segs x, Decidable (coveredBy segs x) := fun segs x => by
  unfold coveredBy
  infer_instance

/-- Number of call intervals active at sample position `x` (interval `(b, e)`
is active over `[b, e)`). -/
def activeCount (intervals : List (Int × Int)) (x : Int) : Int :=
  ((intervals.filter (fun p => decide (p.1 ≤ x ∧ x < p.2))).length : Int)

/-- Sum of the changes of all events whose offset is at most `x`. -/
def sumLE (events : List (Int × Int)) (x : Int) : Int :=
  ((events.filter (fun p => decide (p.1 ≤ x))).map Prod.snd).sum

/-- Events ordered by offset only (what "sorted by offset" means). -/
def sortedByOffset (events : List (Int × Int)) : Prop :=
  List.Pairwise (fun a b : Int × Int => a.1 ≤ b.1) events

instance : ∀ events, Decidable (sortedByOffset events) := fun events => by
  unfold sortedByOffset
  infer_instance

/-- The point-timestamp schema of `read_noise_csv` (`'Time (s)'` column):
`beginnings = df['Time (s)'].values - 1.5; endings = beginnings + 1.5`,
in seconds, before conversion to sample offsets. -/
def pointIntervals (times : List ℚ) : List (ℚ × ℚ) :=
  times.map (fun t => (t - 3/2, (t - 3/2) + 3/2))

/-- The point-timestamp treatment as the claim words it: each timestamp is
the center of a 1.5-second call, `[t - 0.75, t + 0.75]`. -/
def pointIntervalsClaim (times : List ℚ) : List (ℚ × ℚ) :=
  times.map (fun t => (t - 3/4, t + 3/4))

/-! ### `loop` and `crop` -/

/-- `loop(array, length)`: loops `array` along its first axis to reach
`length`; `np.tile` is concatenation of whole copies, `array[:missing:]` is
`take missing`, `np.zeros` is `List.replicate _ 0`. -/
def loop {α : Type} [Zero α] (array : List α) (length : Nat) : List α :=
  if array.length < length then
    if array.length = 0 then
      List.replicate length 0
    else
      let factor := length / array.length
      let tiled := if 1 < factor then (List.replicate factor array).flatten else array
      let missing := length - tiled.length
      if missing ≠ 0 then tiled ++ tiled.take missing else tiled
  else
    array

/-- `crop(array, length, deterministic)`: the random draw
`pos = np.random.randint(len(array) - length + 1)` is passed in explicitly;
Python's `a[i:j]` is `(a.drop i).take (j - i)`. -/
def crop {α : Type} (array : List α) (length : Nat) (deterministic : Bool) (pos : Nat) :
    List α :=
  if length < array.length then
    if deterministic then
      ((array.drop ((array.length - length) / 2)).take
        ((array.length + length) / 2 - (array.length - length) / 2))
    else
      (array.drop pos).take (pos + length - pos)
  else
    array

/-! ### Items and the transform stages -/

/-- An item is a mapping from field names to optional values (`none` models a
key missing from the Python dict). -/
def Item (α : Type) : Type := String → Option α

/-- `item[k] = v` on a dict. -/
def updateF {α : Type} (item : Item α) (k : String) (v : Option α) : Item α :=
  fun k1 => if k1 = k then v else item k1

/-- `FixedSizeExcerpts.__getitem__`: crop or loop the value at `key` along the
first axis to exactly `length`; every other field passes through. -/
def fse_getitem {α : Type} [Zero α] (item : Item (List α)) (key : String)
    (length : Nat) (deterministic : Bool) (pos : Nat) : Item (List α) :=
  updateF item key ((item key).map (fun data =>
    if data.length < length then loop data length
    else if length < data.length then crop data length deterministic pos
    else data))

/-- `FixedSizeExcerpts.__init__` shape rewriting:
`shapes[key] = (length,) + shapes[key][1:]`. -/
def fse_shapes (shapes : String → Option (List (Option Nat))) (key : String)
    (length : Nat) : String → Option (List (Option Nat)) :=
  fun k => if k = key then (shapes key).map (fun s => some length :: s.tail) else shapes k

/-- `Floatify.__getitem__`: `audio.to_float` (external to this module) and the
transpose `.T` are passed as functions `toFloat` and `tr`; only `key` is
touched. -/
def floatify_getitem {α : Type} (toFloat : α → α) (tr : α → α) (item : Item α)
    (key : String) (transpose : Bool) : Item α :=
  updateF item key ((item key).map (fun d => toFloat (if transpose then tr d else d)))

/-- `Floatify.__init__` shape rewriting: reverse `shapes[key]` iff
`transpose`. -/
def floatify_shapes (shapes : String → Option (List (Option Nat))) (key : String)
    (transpose : Bool) : String → Option (List (Option Nat)) :=
  fun k =>
    if k = key then (if transpose then (shapes key).map List.reverse else shapes key)
    else shapes k

/-- `Floatify.__init__` dtype rewriting: `dtypes[key] = np.float32`. -/
def floatify_dtypes (dtypes : String → Option String) (key : String) :
    String → Option String :=
  fun k => if k = key then some "float32" else dtypes k

/-- Audio values for the mixing stages: a 1-D array of rational samples. -/
abbrev Val : Type := List ℚ

/-- `np.zeros_like`. -/
def zerosLike (v : Val) : Val := v.map (fun _ => 0)

/-- `abs(wav).max()` (0 on an empty array). -/
def maxAbs (v : Val) : ℚ := (v.map (fun a => |a|)).foldr max 0

/-- `MixBackgroundNoise.get_noise`, with the drawn noise excerpt `wav` and the
uniform draw `rAmp` for the amplitude factor passed in explicitly. -/
def get_noise (wav : Val) (minAmp maxAmp rAmp : ℚ) : Val :=
  if maxAmp ≠ 0 then
    let factor := if minAmp ≠ maxAmp then minAmp + rAmp * (maxAmp - minAmp) else minAmp
    let maxAmplitude := if maxAbs wav = 0 then 1 else maxAbs wav
    wav.map (fun a => a * (factor / maxAmplitude))
  else
    wav

/-- `(1 - noise_factor) * wav + noise_factor * noise`, elementwise. -/
def mixWav (noiseFactor : ℚ) (wav noise : Val) : Val :=
  List.zipWith (fun a b => (1 - noiseFactor) * a + noiseFactor * b) wav noise

/-- `MixBackgroundNoise.__getitem__`.  The random draws are explicit:
`r1` and `r2` are the `np.random.rand()` calls guarding the two branches,
`rf` the draw for the mixing factor, `noiseWav`/`rAmp` the inputs of
`get_noise`.  The noise-only branch replaces `item[key]` by the noise and then
zeroes every field in `labelKeys`. -/
def mixbg_getitem (item : Item Val) (key : String) (labelKeys : List String)
    (probability noiseOnlyProbability minFactor maxFactor minAmp maxAmp : ℚ)
    (r1 r2 rf rAmp : ℚ) (noiseWav : Val) : Item Val :=
  if 0 < noiseOnlyProbability ∧ r1 < noiseOnlyProbability then
    labelKeys.foldl (fun it k => updateF it k ((it k).map zerosLike))
      (updateF item key (some (get_noise noiseWav minAmp maxAmp rAmp)))
  else if 0 < probability ∧ (probability = 1 ∨ r2 < probability) then
    updateF item key ((item key).map (fun wav =>
      mixWav (minFactor + rf * (maxFactor - minFactor)) wav
        (get_noise noiseWav minAmp maxAmp rAmp)))
  else
    item

/-- `np.mean(wav, axis=0, keepdims=True)` on a channels-by-time array. -/
def meanAxis0 (wav : List Val) : Val :=
  wav.transpose.map (fun col => col.sum / (col.length : ℚ))

/-- `DownmixChannels.__getitem__` with `method='average'` and `axis=0`:
average across channels iff more than one channel is present (`keepdims`
keeps a channel axis of size 1). -/
def downmix_average (wav : List Val) : List Val :=
  if 1 < wav.length then [meanAxis0 wav] else wav

/-- The `DownmixChannels` item transformation: only `key` is touched. -/
def downmix_getitem (item : Item (List Val)) (key : String) : Item (List Val) :=
  updateF item key ((item key).map downmix_average)

/-- `DownmixChannels.__init__` shape rewriting: `shape[axis] = 1`. -/
def downmix_shapes (shapes : String → Option (List (Option Nat))) (key : String)
    (axis : Nat) : String → Option (List (Option Nat)) :=
  fun k => if k = key then (shapes key).map (fun s => s.set axis (some 1)) else shapes k

/-- `w1 * item1[k] + w2 * item2[k]` with `w2 = 1 - w1` (`none` when either
dict lacks the key, where the Python code would raise). -/
def blendVals (w1 : ℚ) : Option Val → Option Val → Option Val
  | some v1, some v2 => some (List.zipWith (fun a b => w1 * a + (1 - w1) * b) v1 v2)
  | _, _ => none

/-- `(item[k] > 0.0).astype(item[k].dtype)`: the strictly-positive indicator
(0 and 1 are exact in every numeric dtype). -/
def binarizeVal : Option Val → Option Val :=
  Option.map (List.map (fun a => if 0 < a then (1 : ℚ) else 0))

/-- `Mixup.__getitem__` on two already-retrieved items, with the Beta draw
`w1` explicit: the base item is `item1` iff `w1 >= 1 - w1`; fields in `keys`
are blended; fields in `binarizeKeys` are thresholded afterwards. -/
def mixup_getitem (item1 item2 : Item Val) (keys binarizeKeys : List String)
    (w1 : ℚ) : Item Val :=
  fun k =>
    let base := if 1 - w1 ≤ w1 then item1 else item2
    let blended := if k ∈ keys then blendVals w1 (item1 k) (item2 k) else base k
    if k ∈ binarizeKeys then binarizeVal blended else blended

/-- A `Mixup` access over an upstream dataset `ds`: `idx` is the requested
index, `idx2` the uniformly drawn second index. -/
def mixup_access (ds : Nat → Item Val) (idx idx2 : Nat)
    (keys binarizeKeys : List String) (w1 : ℚ) : Item Val :=
  mixup_getitem (ds idx) (ds idx2) keys binarizeKeys w1

/-! ### Attribute forwarding (`__getattr__`) -/

/-- A chain of dataset wrappers: the leaf carries its attributes, every
wrapper carries the attributes it defines itself. -/
inductive AttrChain (A : Type) where
  | leaf (attrs : String → Option A)
  | wrap (own : String → Option A) (inner : AttrChain A)

/-- Attribute lookup: a wrapper resolves an attribute it defines itself,
otherwise `__getattr__` forwards the lookup to its upstream dataset. -/
def resolveAttr {A : Type} : AttrChain A → String → Option A
  | .leaf attrs, a => attrs a
  | .wrap own inner, a =>
    match own a with
    | some v => some v
    | none => resolveAttr inner a

/-- The attributes of the innermost leaf dataset. -/
def leafAttrs {A : Type} : AttrChain A → String → Option A
  | .leaf attrs => attrs
  | .wrap _ inner => leafAttrs inner

/-- No wrapper layer of the chain defines attribute `a` itself. -/
def noWrapperOwns {A : Type} : AttrChain A → String → Prop
  | .leaf _, _ => True
  | .wrap own inner, a => own a = none ∧ noWrapperOwns inner a

/-! ### Lemmas about the changepoint sweep -/

theorem sumLE_cons (a : Int × Int) (l : List (Int × Int)) (x : Int) :
    sumLE (a :: l) x = (if a.1 ≤ x then a.2 else 0) + sumLE l x := by
  by_cases h : a.1 ≤ x <;> simp [sumLE, List.filter_cons, h]

theorem sumLE_append (l1 l2 : List (Int × Int)) (x : Int) :
    sumLE (l1 ++ l2) x = sumLE l1 x + sumLE l2 x := by
  simp [sumLE, List.filter_append]

theorem sumLE_zero_of_forall_lt (l : List (Int × Int)) (x : Int)
    (h : ∀ e ∈ l, x < e.1) : sumLE l x = 0 := by
  induction l with
  | nil => rfl
  | cons a l ih =>
    rw [sumLE_cons, if_neg (by have := h a (by simp); omega),
      ih (fun e he => h e (by simp [he]))]
    ring

theorem sumLE_perm {l1 l2 : List (Int × Int)} (h : l1.Perm l2) (x : Int) :
    sumLE l1 x = sumLE l2 x :=
  List.Perm.sum_eq ((h.filter _).map _)

/-- Every segment the sweep emits starts no earlier than the first event. -/
theorem sweep_start_ge (a : Int × Int) (l : List (Int × Int)) (acc : Int)
    (hs : sortedByOffset (a :: l)) :
    ∀ p ∈ sweepAux acc (a :: l), a.1 ≤ p.1 := by
  induction l generalizing a acc with
  | nil => intro p hp; simp [sweepAux] at hp
  | cons b l ih =>
    intro p hp
    obtain ⟨t1, c1⟩ := a
    obtain ⟨t2, c2⟩ := b
    unfold sortedByOffset at hs
    rw [List.pairwise_cons] at hs
    have ht12 : t1 ≤ t2 := hs.1 (t2, c2) (by simp)
    unfold sweepAux at hp
    by_cases h0 : acc + c1 = 0
    · rw [if_pos h0] at hp
      rcases List.mem_cons.mp hp with h | h
      · subst h; simp
      · exact le_trans ht12 (ih (t2, c2) (acc + c1) hs.2 p h)
    · rw [if_neg h0] at hp
      exact le_trans ht12 (ih (t2, c2) (acc + c1) hs.2 p hp)

theorem coveredBy_cons (q : Int × Int) (segs : List (Int × Int)) (x : Int) :
    coveredBy (q :: segs) x ↔ (q.1 ≤ x ∧ x < q.1 + q.2) ∨ coveredBy segs x := by
  simp [coveredBy]

/-- Core invariant of the sweep: starting from running count `acc`, a
position `x` lying at or after the first event and strictly before some later
event is covered by an emitted segment iff the running count of all events
with offset at most `x` is zero. -/
theorem sweep_covered_iff (a : Int × Int) (l : List (Int × Int)) (acc : Int) (x : Int)
    (hs : sortedByOffset (a :: l)) (hax : a.1 ≤ x) (hex : ∃ e ∈ l, x < e.1) :
    coveredBy (sweepAux acc (a :: l)) x ↔ acc + sumLE (a :: l) x = 0 := by
  induction l generalizing a acc with
  | nil => simp at hex
  | cons b l ih =>
    obtain ⟨t1, c1⟩ := a
    obtain ⟨t2, c2⟩ := b
    unfold sortedByOffset at hs
    rw [List.pairwise_cons] at hs
    have ht12 : t1 ≤ t2 := hs.1 (t2, c2) (by simp)
    by_cases hx2 : x < t2
    · have htail : sumLE ((t2, c2) :: l) x = 0 := by
        apply sumLE_zero_of_forall_lt
        intro e he
        rcases List.mem_cons.mp he with h | h
        · subst h; exact hx2
        · have h2 : t2 ≤ e.1 := (List.pairwise_cons.mp hs.2).1 e h
          omega
      have hsum : sumLE ((t1, c1) :: (t2, c2) :: l) x = c1 := by
        rw [sumLE_cons, if_pos hax, htail]; ring
      rw [hsum]
      unfold sweepAux
      by_cases h0 : acc + c1 = 0
      · rw [if_pos h0]
        constructor
        · intro _; exact h0
        · intro _
          rw [coveredBy_cons]
          left
          exact ⟨hax, by simpa using hx2⟩
      · rw [if_neg h0]
        constructor
        · intro hc
          obtain ⟨p, hp, hpx, _⟩ := hc
          have := sweep_start_ge (t2, c2) l (acc + c1) hs.2 p hp
          omega
        · intro hc; exact absurd hc h0
    · push_neg at hx2
      have hex2 : ∃ e ∈ l, x < e.1 := by
        obtain ⟨e, he, hxe⟩ := hex
        rcases List.mem_cons.mp he with h | h
        · subst h; omega
        · exact ⟨e, h, hxe⟩
      have hIH := ih (t2, c2) (acc + c1) hs.2 hx2 hex2
      unfold sweepAux
      have hstep : sumLE ((t1, c1) :: (t2, c2) :: l) x = c1 + sumLE ((t2, c2) :: l) x := by
        rw [sumLE_cons, if_pos hax]
      by_cases h0 : acc + c1 = 0
      · rw [if_pos h0, coveredBy_cons, hIH]
        constructor
        · intro hc
          rcases hc with h | h
          · simp at h; omega
          · rw [hstep]; omega
        · intro hc
          right
          rw [hstep] at hc; omega
      · rw [if_neg h0, hIH, hstep]
        omega

theorem activeCount_cons (p : Int × Int) (I : List (Int × Int)) (x : Int) :
    activeCount (p :: I) x
      = (if p.1 ≤ x ∧ x < p.2 then 1 else 0) + activeCount I x := by
  by_cases h : p.1 ≤ x ∧ x < p.2
  · simp [activeCount, List.filter_cons, h]
    ring
  · simp [activeCount, List.filter_cons, h]

/-- The net count of begin events minus end events up to `x` is the number of
intervals active at `x`. -/
theorem sumLE_eventsOf (I : List (Int × Int)) (x : Int)
    (hI : ∀ p ∈ I, p.1 ≤ p.2) :
    sumLE (eventsOf I) x = activeCount I x := by
  induction I with
  | nil => simp [eventsOf, sumLE, activeCount]
  | cons p I ih =>
    have hp := hI p (by simp)
    have hI2 : ∀ q ∈ I, q.1 ≤ q.2 := fun q hq => hI q (by simp [hq])
    have hsplit : eventsOf (p :: I)
        = ((p.1, (1 : Int)) :: I.map (fun q => (q.1, (1 : Int))))
          ++ ((p.2, (-1 : Int)) :: I.map (fun q => (q.2, (-1 : Int)))) := by
      simp [eventsOf]
    have hprev : sumLE (eventsOf I) x
        = sumLE (I.map (fun q => (q.1, (1 : Int)))) x
          + sumLE (I.map (fun q => (q.2, (-1 : Int)))) x := sumLE_append ..
    rw [hsplit, sumLE_append, sumLE_cons, sumLE_cons, activeCount_cons]
    rw [← ih hI2, hprev]
    split_ifs <;> omega

/-- Offsets of the events of in-range intervals are in `[0, L]`. -/
theorem eventsOf_offset_bounds (I : List (Int × Int)) (L : Int)
    (hI : ∀ p ∈ I, 0 ≤ p.1 ∧ p.1 ≤ p.2 ∧ p.2 ≤ L) :
    ∀ e ∈ eventsOf I, 0 ≤ e.1 ∧ e.1 ≤ L := by
  intro e he
  unfold eventsOf at he
  rcases List.mem_append.mp he with h | h <;>
    obtain ⟨q, hq, rfl⟩ := List.mem_map.mp h <;>
    have := hI q hq <;> simp <;> omega

/-- The sweep over any offset-sorted arrangement of the events of `I`,
wrapped in the synthetic `(0, 0)` and `(L, 0)` events, covers exactly the
positions of `[0, L)` where no interval of `I` is active. -/
theorem coveredBy_sweepSegments_iff (I : List (Int × Int)) (L : Int)
    (ev : List (Int × Int)) (hsort : sortedByOffset ev) (hperm : ev.Perm (eventsOf I))
    (hI : ∀ p ∈ I, 0 ≤ p.1 ∧ p.1 ≤ p.2 ∧ p.2 ≤ L)
    (x : Int) (hx0 : 0 ≤ x) (hxL : x < L) :
    coveredBy (sweepSegments ev L) x ↔ activeCount I x = 0 := by
  have hbounds : ∀ e ∈ ev, 0 ≤ e.1 ∧ e.1 ≤ L :=
    fun e he => eventsOf_offset_bounds I L hI e (hperm.mem_iff.mp he)
  have hsort2 : sortedByOffset ((0, 0) :: (ev ++ [(L, 0)])) := by
    unfold sortedByOffset
    rw [List.pairwise_cons]
    constructor
    · intro b hb
      rcases List.mem_append.mp hb with h | h
      · exact (hbounds b h).1
      · simp at h; subst h; omega
    · rw [List.pairwise_append]
      refine ⟨hsort, by simp, ?_⟩
      intro a ha b hb
      simp at hb
      subst hb
      exact (hbounds a ha).2
  have hmain := sweep_covered_iff (0, 0) (ev ++ [(L, 0)]) 0 x hsort2 hx0
    ⟨(L, 0), by simp, hxL⟩
  unfold sweepSegments
  rw [hmain, sumLE_cons, sumLE_append]
  have hlast : sumLE [(L, 0)] x = 0 := by
    by_cases h : L ≤ x <;> simp [sumLE, List.filter_cons, h]
  rw [hlast, sumLE_perm hperm x, sumLE_eventsOf I x (fun p hp => (hI p hp).2.1)]
  simp

/-- `sorted` produces an offset-sorted permutation of the events. -/
theorem sortEvents_sortedByOffset (events : List (Int × Int)) :
    sortedByOffset (sortEvents events) ∧ (sortEvents events).Perm events := by
  constructor
  · exact (List.sorted_insertionSort evLe events).imp (fun h => by unfold evLe at h; omega)
  · exact List.perm_insertionSort evLe events

/-- C1 (counterexample): the emitted list is NOT independent of the relative
order of simultaneous `+1`/`-1` events.  For the back-to-back intervals
`[0,5)` and `[5,10)` the two arrangements of the events at offset 5 — both
sorted by offset, permutations of each other, and one of them the code's
lexicographic `sorted` order — yield different segment lists
(`[(0,0),(5,0),(10,0)]` versus `[(0,0),(10,0)]`). -/
theorem sweep_order_dependent :
    sortedByOffset [((0 : Int), 1), (5, -1), (5, 1), (10, -1)]
    ∧ sortedByOffset [((0 : Int), 1), (5, 1), (5, -1), (10, -1)]
    ∧ List.Perm [((0 : Int), 1), (5, -1), (5, 1), (10, -1)]
        [((0 : Int), 1), (5, 1), (5, -1), (10, -1)]
    ∧ [((0 : Int), 1), (5, 1), (5, -1), (10, -1)] = eventsOf [(0, 5), (5, 10)]
    ∧ sortEvents (eventsOf [((0 : Int), 5), (5, 10)]) = [(0, 1), (5, -1), (5, 1), (10, -1)]
    ∧ sweepSegments [((0 : Int), 1), (5, -1), (5, 1), (10, -1)] 10
        ≠ sweepSegments [((0 : Int), 1), (5, 1), (5, -1), (10, -1)] 10 := by
  decide

/-- C1 (amended): the segment detector turns interval starts into `+1` and
ends into `-1` events, sorts them, wraps them in `(0, 0)` and `(L, 0)`, and
emits the stretch between consecutive event points wherever the running sum
is zero.  For in-range intervals, a sample position of `[0, L)` is covered by
an emitted stretch iff the number of active calls there is zero — and this
coverage (though not the list of zero-length stretches) is the same for every
offset-sorted arrangement of the simultaneous events, so the detector is
correct for overlapping, nested, and back-to-back intervals. -/
theorem read_noise_segments_correct (I : List (Int × Int)) (L : Int)
    (hI : ∀ p ∈ I, 0 ≤ p.1 ∧ p.1 ≤ p.2 ∧ p.2 ≤ L) :
    (∀ x : Int, 0 ≤ x → x < L →
      (coveredBy (read_noise_segments I L) x ↔ activeCount I x = 0))
    ∧ (∀ ev : List (Int × Int), sortedByOffset ev → ev.Perm (eventsOf I) →
        ∀ x : Int, 0 ≤ x → x < L →
          (coveredBy (sweepSegments ev L) x ↔ activeCount I x = 0)) := by
  constructor
  · intro x hx0 hxL
    exact coveredBy_sweepSegments_iff I L (sortEvents (eventsOf I))
      (sortEvents_sortedByOffset (eventsOf I)).1
      (sortEvents_sortedByOffset (eventsOf I)).2 hI x hx0 hxL
  · intro ev hsort hperm x hx0 hxL
    exact coveredBy_sweepSegments_iff I L ev hsort hperm hI x hx0 hxL

/-- Witness for C1 at the intervals `[0,10)`, `[5,15)` of a length-30
recording and position 20. -/
theorem read_noise_segments_correct_witness :
    coveredBy (read_noise_segments [((0 : Int), 10), (5, 15)] 30) 20
      ↔ activeCount [((0 : Int), 10), (5, 15)] 20 = 0 :=
  (read_noise_segments_correct [(0, 10), (5, 15)] 30 (by decide)).1 20 (by decide) (by decide)

/-- C6 (counterexample): for the calls `[0,10)` and `[5,15)` over a length-30
recording, `read_noise_csv` does not return exactly one segment: it returns
the zero-length segment `(0, 0)` as well as `(15, 15)`. -/
theorem read_noise_example_counterexample :
    read_noise_segments [((0 : Int), 10), (5, 15)] 30 = [(0, 0), (15, 15)]
    ∧ (read_noise_segments [((0 : Int), 10), (5, 15)] 30).length ≠ 1 := by
  decide

/-- C6 (amended): for the calls `[0,10)` and `[5,15)` over a length-30
recording the detector returns `[(0, 0), (15, 15)]`; the only segment of
positive length — the only bird-free stretch a `min_length ≥ 1` caller keeps
— is `(15, 15)`. -/
theorem read_noise_example :
    read_noise_segments [((0 : Int), 10), (5, 15)] 30 = [(0, 0), (15, 15)]
    ∧ (read_noise_segments [((0 : Int), 10), (5, 15)] 30).filter
        (fun p => decide (0 < p.2)) = [(15, 15)] := by
  decide

/-- C7 (counterexample): for the single timestamp 3 s, the code produces the
call interval `[1.5, 3]` (the timestamp is its right edge), not the centered
`[2.25, 3.75]` interval the claim describes. -/
theorem pointIntervals_counterexample :
    pointIntervals [3] = [(3/2, 3)] ∧ pointIntervals [3] ≠ pointIntervalsClaim [3] := by
  constructor
  · norm_num [pointIntervals]
  · norm_num [pointIntervals, pointIntervalsClaim]

/-- C7 (amended): under the point-timestamp schema every timestamp `t` is
treated as the END of a fixed 1.5-second call, i.e. the call is active over
`[t - 1.5, t]` seconds, before the zero-count sweep is applied. -/
theorem pointIntervals_eq_end_aligned (ts : List ℚ) :
    pointIntervals ts = ts.map (fun t => (t - 3/2, t)) := by
  unfold pointIntervals
  simp

/-! ### Lemmas about `loop` and `crop` -/

theorem flatten_replicate_length {α : Type} (f : Nat) (l : List α) :
    ((List.replicate f l).flatten).length = f * l.length := by
  induction f with
  | zero => simp
  | succ n ih => simp [List.replicate_succ, ih, Nat.succ_mul, Nat.add_comm]

theorem take_flatten_replicate {α : Type} (f : Nat) (l : List α) (k : Nat)
    (hk : k ≤ l.length) (hf : 1 ≤ f) :
    ((List.replicate f l).flatten).take k = l.take k := by
  obtain ⟨g, rfl⟩ : ∃ g, f = g + 1 := ⟨f - 1, by omega⟩
  rw [List.replicate_succ, List.flatten_cons, List.take_append_eq_append_take,
    Nat.sub_eq_zero_of_le hk, List.take_zero, List.append_nil]

theorem flatten_replicate_one {α : Type} (l : List α) :
    ((List.replicate 1 l).flatten) = l := by
  simp

/-- A too-short array is looped: whole-array repetitions followed by the
partial repetition that reaches exactly the target length. -/
theorem loop_spec {α : Type} [Zero α] (array : List α) (L : Nat)
    (h0 : 0 < array.length) (h : array.length < L) :
    loop array L =
      (List.replicate (L / array.length) array).flatten
        ++ array.take (L % array.length)
    ∧ (loop array L).length = L := by
  have hprod : (L / array.length) * array.length + L % array.length = L := by
    rw [Nat.mul_comm]
    exact Nat.div_add_mod L array.length
  have hmodlt : L % array.length < array.length := Nat.mod_lt _ h0
  have hf1 : 1 ≤ L / array.length := (Nat.one_le_div_iff h0).mpr (le_of_lt h)
  have hlen : ((List.replicate (L / array.length) array).flatten).length
      = (L / array.length) * array.length := flatten_replicate_length ..
  have hmain : loop array L =
      (List.replicate (L / array.length) array).flatten
        ++ array.take (L % array.length) := by
    unfold loop
    rw [if_pos h, if_neg (by omega)]
    by_cases hf : 1 < L / array.length
    · simp only [if_pos hf, hlen]
      by_cases hm : L - (L / array.length) * array.length = 0
      · rw [if_neg (by omega : ¬ (L - (L / array.length) * array.length ≠ 0))]
        have hr : L % array.length = 0 := by omega
        simp [hr]
      · rw [if_pos hm, take_flatten_replicate _ _ _ (by omega) hf1]
        congr 2
        omega
    · have hfeq : L / array.length = 1 := by omega
      rw [hfeq] at hprod
      simp only [if_neg hf]
      rw [if_pos (by omega : L - array.length ≠ 0), hfeq, flatten_replicate_one]
      congr 2
      omega
  refine ⟨hmain, ?_⟩
  rw [hmain, List.length_append, hlen, List.length_take,
    Nat.min_eq_left (Nat.le_of_lt hmodlt)]
  omega

/-- An empty source loops to an all-zero array of the target length. -/
theorem loop_nil {α : Type} [Zero α] (L : Nat) :
    loop ([] : List α) L = List.replicate L 0 := by
  cases L with
  | zero => rfl
  | succ n => simp [loop]

/-- C4: when the source field is shorter than the target length,
`FixedSizeExcerpts` loops it: whole-array tiled repetitions followed by a
partial repetition reaching exactly the target length; a length-0 source
yields an all-zero array of the target length, never an error; `[1,2,3]`
looped to 7 is `[1,2,3,1,2,3,1]`. -/
theorem fse_loop_claim :
    (∀ (item : Item (List ℚ)) (key : String) (L : Nat) (det : Bool) (pos : Nat) (v : List ℚ),
      item key = some v → v.length < L →
      fse_getitem item key L det pos key = some (loop v L))
    ∧ (∀ (array : List ℚ) (L : Nat), 0 < array.length → array.length < L →
        loop array L = (List.replicate (L / array.length) array).flatten
            ++ array.take (L % array.length)
        ∧ (loop array L).length = L)
    ∧ (∀ L : Nat, loop ([] : List ℚ) L = List.replicate L 0)
    ∧ loop ([1, 2, 3] : List ℤ) 7 = [1, 2, 3, 1, 2, 3, 1] := by
  refine ⟨?_, fun array L h0 h => loop_spec array L h0 h, fun L => loop_nil L, by decide⟩
  intro item key L det pos v hv hlen
  simp [fse_getitem, updateF, hv, hlen]

/-- Witness for C4: a length-2 source looped to 5 samples. -/
theorem fse_loop_claim_witness :
    fse_getitem (fun _ => some ([1, 2] : List ℚ)) "input" 5 false 0 "input"
      = some (loop [1, 2] 5) :=
  fse_loop_claim.1 (fun _ => some [1, 2]) "input" 5 false 0 [1, 2] rfl (by norm_num)

/-- C5: when the source field is longer than the target length,
`FixedSizeExcerpts` crops it — deterministically the floor-centered window of
the target length (start offset `(len - length) / 2`), otherwise the window
at the drawn start offset, any of the `len - length + 1` valid offsets; a
source of exactly the target length passes through unchanged; `[0..5]`
center-cropped to 4 is `[1,2,3,4]`. -/
theorem crop_claim :
    (∀ (item : Item (List ℚ)) (key : String) (L : Nat) (det : Bool) (pos : Nat) (v : List ℚ),
      item key = some v → L < v.length →
      fse_getitem item key L det pos key = some (crop v L det pos))
    ∧ (∀ (array : List ℚ) (L pos : Nat), L < array.length →
        crop array L true pos = (array.drop ((array.length - L) / 2)).take L
        ∧ (crop array L true pos).length = L)
    ∧ (∀ (array : List ℚ) (L pos : Nat), L < array.length → pos ≤ array.length - L →
        crop array L false pos = (array.drop pos).take L
        ∧ (crop array L false pos).length = L)
    ∧ (∀ (array : List ℚ) (L : Nat) (det : Bool) (pos : Nat), array.length = L →
        crop array L det pos = array)
    ∧ crop ([0, 1, 2, 3, 4, 5] : List ℤ) 4 true 0 = [1, 2, 3, 4] := by
  refine ⟨?_, ?_, ?_, ?_, by decide⟩
  · intro item key L det pos v hv hlen
    simp [fse_getitem, updateF, hv, hlen, Nat.not_lt_of_lt hlen]
  · intro array L pos h
    have harith : (array.length + L) / 2 - (array.length - L) / 2 = L := by omega
    constructor
    · simp [crop, h, harith]
    · simp [crop, h, harith, List.length_take, List.length_drop]
      omega
  · intro array L pos h hpos
    have harith : pos + L - pos = L := by omega
    constructor
    · simp [crop, h, harith]
    · simp [crop, h, harith, List.length_take, List.length_drop]
      omega
  · intro array L det pos h
    simp [crop, h]

/-- Witness for C5: deterministic center crop of a length-3 source to 2. -/
theorem crop_claim_witness :
    crop ([10, 20, 30] : List ℚ) 2 true 0
      = (([10, 20, 30] : List ℚ).drop ((3 - 2) / 2)).take 2 :=
  ((crop_claim.2.1 [10, 20, 30] 2 0 (by norm_num)).1)

/-! ### Frame effect of the transform stages -/

theorem zerosLike_zerosLike (v : Val) : zerosLike (zerosLike v) = zerosLike v := by
  simp [zerosLike, List.map_map]

/-- Evaluating the label-zeroing fold of the noise-only branch. -/
theorem foldl_zero_labels (ks : List String) (it : Item Val) (k : String) :
    (ks.foldl (fun it2 k2 => updateF it2 k2 ((it2 k2).map zerosLike)) it) k
      = if k ∈ ks then (it k).map zerosLike else it k := by
  induction ks generalizing it with
  | nil => simp
  | cons k0 ks ih =>
    rw [List.foldl_cons, ih]
    by_cases h1 : k = k0
    · subst h1
      by_cases h2 : k ∈ ks
      · simp only [if_pos h2, if_pos (List.mem_cons_self k ks), updateF, if_pos rfl]
        cases it k <;> simp [zerosLike_zerosLike]
      · simp [if_neg h2, updateF, if_pos rfl, List.mem_cons_self k ks]
    · have hmem : (k ∈ k0 :: ks) ↔ k ∈ ks := by simp [h1]
      by_cases h2 : k ∈ ks <;> simp [updateF, h1, h2, hmem]

/-- `__getattr__` forwarding resolves an attribute defined on no wrapper at
the innermost leaf, through any number of wrapping layers. -/
theorem resolveAttr_forwards {A : Type} (c : AttrChain A) (a : String)
    (h : noWrapperOwns c a) : resolveAttr c a = leafAttrs c a := by
  induction c with
  | leaf attrs => rfl
  | wrap own inner ih =>
    obtain ⟨h1, h2⟩ := h
    simp [resolveAttr, leafAttrs, h1, ih h2]

/-- C3 (counterexample): `Mixup` violates the value pass-through invariant.
With blend keys `["x"]` and no binarize keys, the field `"id"` is not
declared as modified, yet for blend weight `w1 = 0` the returned item copies
it from the randomly drawn second item (`some [1]`), not from the upstream
item at the requested index (`some [0]`). -/
theorem mixup_passthrough_counterexample :
    mixup_access (fun i _ => some [(i : ℚ)]) 0 1 ["x"] [] 0 "id" = some [1]
    ∧ (fun (i : Nat) (_ : String) => some [(i : ℚ)]) 0 "id" = some [0]
    ∧ mixup_access (fun i _ => some [(i : ℚ)]) 0 1 ["x"] [] 0 "id"
        ≠ (fun (i : Nat) (_ : String) => some [(i : ℚ)]) 0 "id" := by
  refine ⟨?_, by norm_num, ?_⟩
  · simp [mixup_access, mixup_getitem]
    norm_num
  · simp [mixup_access, mixup_getitem]
    norm_num

/-- C3 (amended): every stage's declared schema (shapes and dtypes) agrees
with its upstream's on every field it does not declare as modified, and
`FixedSizeExcerpts`, `Floatify`, `DownmixChannels` and `MixBackgroundNoise`
also return the upstream item's value unchanged on those fields; `Mixup`
instead copies unmodified fields from the more heavily weighted of the two
drawn items (the requested one only when `w1 ≥ 1 - w1`); unknown attribute
lookups are forwarded to the upstream dataset through any number of wrapping
layers. -/
theorem stage_frame_effect :
    (∀ (shapes : String → Option (List (Option Nat))) (key : String) (L : Nat) (k : String),
      k ≠ key → fse_shapes shapes key L k = shapes k)
    ∧ (∀ (item : Item (List ℚ)) (key : String) (L : Nat) (det : Bool) (pos : Nat) (k : String),
        k ≠ key → fse_getitem item key L det pos k = item k)
    ∧ (∀ (shapes : String → Option (List (Option Nat))) (key : String) (tr : Bool) (k : String),
        k ≠ key → floatify_shapes shapes key tr k = shapes k)
    ∧ (∀ (dtypes : String → Option String) (key k : String),
        k ≠ key → floatify_dtypes dtypes key k = dtypes k)
    ∧ (∀ (toFloat tr : List ℚ → List ℚ) (item : Item (List ℚ)) (key : String) (t : Bool)
        (k : String), k ≠ key → floatify_getitem toFloat tr item key t k = item k)
    ∧ (∀ (shapes : String → Option (List (Option Nat))) (key : String) (axis : Nat)
        (k : String), k ≠ key → downmix_shapes shapes key axis k = shapes k)
    ∧ (∀ (item : Item (List Val)) (key k : String),
        k ≠ key → downmix_getitem item key k = item k)
    ∧ (∀ (item : Item Val) (key : String) (labelKeys : List String)
        (p nop minF maxF minA maxA r1 r2 rf rA : ℚ) (nw : Val) (k : String),
        k ≠ key → k ∉ labelKeys →
        mixbg_getitem item key labelKeys p nop minF maxF minA maxA r1 r2 rf rA nw k = item k)
    ∧ (∀ (item1 item2 : Item Val) (keys bks : List String) (w1 : ℚ) (k : String),
        k ∉ keys → k ∉ bks →
        mixup_getitem item1 item2 keys bks w1 k
          = (if 1 - w1 ≤ w1 then item1 else item2) k)
    ∧ (∀ (A : Type) (c : AttrChain A) (a : String),
        noWrapperOwns c a → resolveAttr c a = leafAttrs c a) := by
  refine ⟨?_, ?_, ?_, ?_, ?_, ?_, ?_, ?_, ?_, fun A c a h => resolveAttr_forwards c a h⟩
  · intro shapes key L k hk
    simp [fse_shapes, hk]
  · intro item key L det pos k hk
    simp [fse_getitem, updateF, hk]
  · intro shapes key tr k hk
    simp [floatify_shapes, hk]
  · intro dtypes key k hk
    simp [floatify_dtypes, hk]
  · intro toFloat tr item key t k hk
    simp [floatify_getitem, updateF, hk]
  · intro shapes key axis k hk
    simp [downmix_shapes, hk]
  · intro item key k hk
    simp [downmix_getitem, updateF, hk]
  · intro item key labelKeys p nop minF maxF minA maxA r1 r2 rf rA nw k hk hlk
    unfold mixbg_getitem
    split
    · rw [foldl_zero_labels, if_neg hlk]
      simp [updateF, hk]
    · split
      · simp [updateF, hk]
      · rfl
  · intro item1 item2 keys bks w1 k hk hbk
    simp [mixup_getitem, hk, hbk]

/-- Witness for C3: the field `"other"` passes through `FixedSizeExcerpts`
targeting `"input"`. -/
theorem stage_frame_effect_witness :
    fse_getitem (fun _ => some ([1, 2, 3] : List ℚ)) "input" 2 true 0 "other"
      = (fun _ => some ([1, 2, 3] : List ℚ)) "other" :=
  stage_frame_effect.2.1 (fun _ => some [1, 2, 3]) "input" 2 true 0 "other" (by decide)

/-! ### `MixBackgroundNoise` -/

/-- C2: per access, when the noise-only draw fires (`rand < noise_only_probability`,
which requires `noise_only_probability > 0`), the audio is replaced entirely
by the freshly drawn noise excerpt and every field in `label_keys` is zeroed;
only otherwise, when the mixing branch fires (`probability > 0` and either
`probability == 1` or `rand < probability`), the audio becomes
`(1 - weight) * original + weight * noise` with
`weight = min_factor + rand * (max_factor - min_factor)`, which for
`min_factor = max_factor = 1/4` is exactly `3/4 * original + 1/4 * noise`;
and when neither branch fires the item passes through unchanged. -/
theorem mixbg_claim (item : Item Val) (key : String) (labelKeys : List String)
    (probability nop minF maxF minA maxA r1 r2 rf rA : ℚ) (noiseWav : Val) :
    (0 < nop → r1 < nop →
      (key ∉ labelKeys →
        mixbg_getitem item key labelKeys probability nop minF maxF minA maxA
            r1 r2 rf rA noiseWav key
          = some (get_noise noiseWav minA maxA rA))
      ∧ (∀ k ∈ labelKeys, k ≠ key →
          mixbg_getitem item key labelKeys probability nop minF maxF minA maxA
              r1 r2 rf rA noiseWav k
            = (item k).map zerosLike))
    ∧ (¬ (0 < nop ∧ r1 < nop) → 0 < probability → (probability = 1 ∨ r2 < probability) →
        ∀ v, item key = some v →
          mixbg_getitem item key labelKeys probability nop minF maxF minA maxA
              r1 r2 rf rA noiseWav key
            = some (mixWav (minF + rf * (maxF - minF)) v (get_noise noiseWav minA maxA rA)))
    ∧ (¬ (0 < nop ∧ r1 < nop) → 0 < probability → (probability = 1 ∨ r2 < probability) →
        minF = 1/4 → maxF = 1/4 →
        ∀ v, item key = some v →
          mixbg_getitem item key labelKeys probability nop minF maxF minA maxA
              r1 r2 rf rA noiseWav key
            = some (List.zipWith (fun a b => 3/4 * a + 1/4 * b) v
                (get_noise noiseWav minA maxA rA)))
    ∧ (¬ (0 < nop ∧ r1 < nop) → ¬ (0 < probability ∧ (probability = 1 ∨ r2 < probability)) →
        mixbg_getitem item key labelKeys probability nop minF maxF minA maxA
            r1 r2 rf rA noiseWav = item) := by
  refine ⟨fun h1 h2 => ⟨?_, ?_⟩, ?_, ?_, ?_⟩
  · intro hkl
    unfold mixbg_getitem
    rw [if_pos ⟨h1, h2⟩, foldl_zero_labels, if_neg hkl]
    simp [updateF]
  · intro k hk hkne
    unfold mixbg_getitem
    rw [if_pos ⟨h1, h2⟩, foldl_zero_labels, if_pos hk]
    simp [updateF, hkne]
  · intro hn1 hp1 hp2 v hv
    unfold mixbg_getitem
    rw [if_neg hn1, if_pos ⟨hp1, hp2⟩]
    simp [updateF, hv]
  · intro hn1 hp1 hp2 hminF hmaxF v hv
    subst hminF hmaxF
    unfold mixbg_getitem
    rw [if_neg hn1, if_pos ⟨hp1, hp2⟩]
    simp [updateF, hv]
    unfold mixWav
    congr 1
    funext a b
    ring
  · intro hn1 hn2
    unfold mixbg_getitem
    rw [if_neg hn1, if_neg hn2]

/-- Witness for C2: a noise-only access with `noise_only_probability = 1`. -/
theorem mixbg_claim_witness :
    mixbg_getitem (fun _ => some ([2, 4] : Val)) "input" ["label_all"] 1 1 0 0 0 0
        0 0 0 0 [9, 9] "input"
      = some (get_noise [9, 9] 0 0 0) :=
  ((mixbg_claim (fun _ => some [2, 4]) "input" ["label_all"] 1 1 0 0 0 0 0 0 0 0 [9, 9]).1
    (by norm_num) (by norm_num)).1 (by decide)

/-! ### `DownmixChannels` and `Mixup` -/

/-- C8: `DownmixChannels` with `method='average'` replaces the target key by
the unweighted mean across the channel axis when more than one channel is
present (keeping a channel axis of size 1), is a no-op for single-channel
input, declares the key's channel-axis size as 1, and maps the two-channel
input `[[2,2],[4,4]]` to the averaged channel `[3,3]`. -/
theorem downmix_claim :
    downmix_average [[(2 : ℚ), 2], [4, 4]] = [[3, 3]]
    ∧ (∀ wav : List Val, wav.length = 1 → downmix_average wav = wav)
    ∧ (∀ wav : List Val, 1 < wav.length →
        downmix_average wav = [meanAxis0 wav] ∧ (downmix_average wav).length = 1)
    ∧ (∀ (item : Item (List Val)) (key : String) (w : List Val), item key = some w →
        downmix_getitem item key key = some (downmix_average w))
    ∧ (∀ (shapes : String → Option (List (Option Nat))) (key : String) (s : List (Option Nat)),
        shapes key = some s → 0 < s.length →
        downmix_shapes shapes key 0 key = some (s.set 0 (some 1))
        ∧ (s.set 0 (some 1))[0]? = some (some 1)) := by
  refine ⟨?_, ?_, ?_, ?_, ?_⟩
  · have ht : ([[(2 : ℚ), 2], [4, 4]] : List Val).transpose = [[2, 4], [2, 4]] := by decide
    norm_num [downmix_average, meanAxis0, ht]
  · intro wav h
    simp [downmix_average, h]
  · intro wav h
    simp [downmix_average, h]
  · intro item key w hw
    simp [downmix_getitem, updateF, hw]
  · intro shapes key s hs hlen
    constructor
    · simp [downmix_shapes, hs]
    · cases s with
      | nil => simp at hlen
      | cons a t => simp

/-- Witness for C8: the two-channel example is averaged to one channel. -/
theorem downmix_claim_witness :
    downmix_average [[(2 : ℚ), 2], [4, 4]] = [meanAxis0 [[(2 : ℚ), 2], [4, 4]]] :=
  (downmix_claim.2.2.1 [[(2 : ℚ), 2], [4, 4]] (by norm_num)).1

theorem mixup_map_zip {f : ℚ → ℚ} {v : Val} {p : ℚ × ℚ}
    (hp : p ∈ (v.map f).zip v) : ∃ a ∈ v, p = (f a, a) := by
  induction v with
  | nil => simp at hp
  | cons a t ih =>
    rcases List.mem_cons.mp hp with h | h
    · exact ⟨a, by simp, h⟩
    · obtain ⟨b, hb, hpb⟩ := ih h
      exact ⟨b, by simp [hb], hpb⟩

/-- C9: every field in `Mixup`'s binarize key set becomes the elementwise
strictly-positive indicator of its (possibly blended) value: each output
element is exactly 0 or exactly 1, and is 1 iff the pre-threshold value was
strictly positive. -/
theorem mixup_binarize_claim (item1 item2 : Item Val) (keys bks : List String)
    (w1 : ℚ) (k : String) (v : Val)
    (hk : k ∈ bks)
    (hv : (if k ∈ keys then blendVals w1 (item1 k) (item2 k)
           else (if 1 - w1 ≤ w1 then item1 else item2) k) = some v) :
    mixup_getitem item1 item2 keys bks w1 k
      = some (v.map (fun a => if 0 < a then (1 : ℚ) else 0))
    ∧ ∀ p ∈ ((v.map (fun a => if 0 < a then (1 : ℚ) else 0)).zip v),
        (p.1 = 0 ∨ p.1 = 1) ∧ (p.1 = 1 ↔ 0 < p.2) := by
  constructor
  · unfold mixup_getitem
    rw [if_pos hk, hv]
    rfl
  · intro p hp
    obtain ⟨a, _, rfl⟩ := mixup_map_zip hp
    by_cases ha : 0 < a <;> simp [ha]

/-- Witness for C9: binarizing the un-blended field `[5, -3]`. -/
theorem mixup_binarize_claim_witness :
    mixup_getitem (fun _ => some ([5, -3] : Val)) (fun _ => some ([5, -3] : Val)) []
        ["label_all"] 1 "label_all"
      = some (([5, -3] : Val).map (fun a => if 0 < a then (1 : ℚ) else 0)) :=
  (mixup_binarize_claim (fun _ => some [5, -3]) (fun _ => some [5, -3]) [] ["label_all"]
    1 "label_all" [5, -3] (by decide) (by norm_num)).1

theorem blendVals_self (w1 : ℚ) (v : Val) :
    List.zipWith (fun a b => w1 * a + (1 - w1) * b) v v = v := by
  induction v with
  | nil => rfl
  | cons a t ih =>
    rw [List.zipWith_cons_cons, ih]
    congr 1
    ring

/-- C10 (counterexample): even when the drawn second index equals the
requested index, a blend key that is also a binarize key does not pass
through: the constant dataset value `[5]` comes back binarized as `[1]`. -/
theorem mixup_binarize_breaks_identity :
    mixup_access (fun _ _ => some [(5 : ℚ)]) 0 0 ["a"] ["a"] 1 "a" = some [1]
    ∧ (fun (_ : Nat) (_ : String) => some [(5 : ℚ)]) 0 "a" = some [5]
    ∧ mixup_access (fun _ _ => some [(5 : ℚ)]) 0 0 ["a"] ["a"] 1 "a"
        ≠ (fun (_ : Nat) (_ : String) => some [(5 : ℚ)]) 0 "a" := by
  refine ⟨?_, by norm_num, ?_⟩
  · simp [mixup_access, mixup_getitem, blendVals, binarizeVal]
  · simp [mixup_access, mixup_getitem, blendVals, binarizeVal]

/-- C10 (amended): when the drawn second index equals the requested index,
every field named in the blend key set and not in the binarize key set equals
the corresponding field of the original item (`w1*x + (1-w1)*x = x`), for any
blend weight. -/
theorem mixup_same_index_identity (ds : Nat → Item Val) (idx : Nat)
    (keys bks : List String) (w1 : ℚ) (k : String)
    (hk : k ∈ keys) (hnb : k ∉ bks) :
    mixup_access ds idx idx keys bks w1 k = ds idx k := by
  unfold mixup_access mixup_getitem
  rw [if_neg hnb, if_pos hk]
  cases h : ds idx k with
  | none => simp [blendVals, h]
  | some v =>
    simp only [blendVals]
    rw [blendVals_self]

/-- Witness for C10: a blended field of a constant dataset at coinciding
indices. -/
theorem mixup_same_index_identity_witness :
    mixup_access (fun _ _ => some ([6, 7] : Val)) 2 2 ["input"] [] (1/3) "input"
      = (fun (_ : Nat) (_ : String) => some ([6, 7] : Val)) 2 "input" :=
  mixup_same_index_identity (fun _ _ => some [6, 7]) 2 ["input"] [] (1/3) "input"
    (by decide) (by decide)


